import Mathlib

/- Shallow embedding of `src/domain_checker.py` (class `DomainChecker`).
Python strings are modelled as lists of character code points
(`List ℕ`, ASCII range).  Pure functions of the source become Lean
functions; the side effects of `check_domain` (file writes, rate-limit
sleeps) are modelled as explicit effect records; the fallible steps of
`check_domains` (the `ZeroDivisionError` on a zero thread count, the
`ValueError` raised by `range(0, 0, 0)` on an empty label list) are
modelled with `Except`.  `while` loops are modelled with an explicit
fuel parameter so that every definition stays executable. -/

namespace DomainCheck

/-- Code points of a Lean string literal, used to write down concrete
Python string values such as `codes "007" = [48, 48, 55]`. -/
def codes (s : String) : List ℕ := s.data.map Char.toNat

/-- Model of Python `str.isdigit` (ASCII fragment): the string is
nonempty and every character is a decimal digit. -/
def isdigit (s : List ℕ) : Bool :=
  !s.isEmpty && s.all (fun c => 48 ≤ c && c ≤ 57)

/-- Model of Python `str.isalpha` (ASCII fragment): the string is
nonempty and every character is a letter. -/
def isalpha (s : List ℕ) : Bool :=
  !s.isEmpty && s.all (fun c => (65 ≤ c && c ≤ 90) || (97 ≤ c && c ≤ 122))

/-- Model of Python `str.lower` on one ASCII character. -/
def lowerChar (c : ℕ) : ℕ := if 65 ≤ c ∧ c ≤ 90 then c + 32 else c

/-- Model of Python `str.lower`. -/
def lowerStr (s : List ℕ) : List ℕ := s.map lowerChar

/-- Model of Python `int(s)` on a decimal digit string (`int(start)`,
`int(end)` in `generate_sequence`). -/
def strToNat : List ℕ → ℕ
  | [] => 0
  | c :: cs => (c - 48) * 10 ^ cs.length + strToNat cs

/-- Little-endian decimal digits of `n`, written with explicit fuel so
the definition is structurally recursive; `decDigitsFuel n n` is the
digit list of `n` (empty for `0`). -/
def decDigitsFuel : ℕ → ℕ → List ℕ
  | 0, _ => []
  | fuel + 1, n => if n = 0 then [] else n % 10 :: decDigitsFuel fuel (n / 10)

/-- Model of Python `str(num)` for a non-negative integer: its decimal
representation, most significant digit first (`str(0) = "0"`). -/
def natStr (n : ℕ) : List ℕ :=
  if n = 0 then [48] else (decDigitsFuel n n).reverse.map (· + 48)

/-- Model of Python `str.zfill(w)`: left-pad with `'0'` up to width `w`
(longer strings are returned unchanged). -/
def zfill (w : ℕ) (s : List ℕ) : List ℕ :=
  List.replicate (w - s.length) 48 ++ s

/-- Numeric branch of `DomainChecker.generate_sequence`
(src/domain_checker.py lines 85-92): padding width is
`max(len(start), len(end))` and the loop is
`for num in range(start_num, end_num + 1): yield str(num).zfill(pad_length)`.
Python `range(a, b + 1)` is `List.range' a (b + 1 - a)` (empty when
`b + 1 ≤ a`, which truncated subtraction gives for free). -/
def genNumeric (s e : List ℕ) : List (List ℕ) :=
  (List.range' (strToNat s) (strToNat e + 1 - strToNat s)).map
    (fun num => zfill (max s.length e.length) (natStr num))

/-- One pass of the increment loop of the alphabetic branch
(src/domain_checker.py lines 105-109), acting on the REVERSED character
list: scanning from the rightmost character, the first one below `'z'`
(122) is bumped and the scan stops; a `'z'` becomes `'a'` (97) and the
scan carries on leftwards. -/
def incRev : List ℕ → List ℕ
  | [] => []
  | c :: rest => if c < 122 then (c + 1) :: rest else 97 :: incRev rest

/-- The in-place increment of the alphabetic branch on the string in
reading order. -/
def incStr (s : List ℕ) : List ℕ := (incRev s.reverse).reverse

/-- Model of Python list comparison `current <= end_chars` on lists of
single-character strings: lexicographic by code point, a strict prefix
comparing as smaller. -/
def pyListLe : List ℕ → List ℕ → Bool
  | [], _ => true
  | _ :: _, [] => false
  | a :: l1, b :: l2 =>
      if a < b then true else if b < a then false else pyListLe l1 l2

/-- Alphabetic branch of `DomainChecker.generate_sequence`
(src/domain_checker.py lines 95-109): `while current <= end_chars`
yield and increment.  The `while` loop is modelled with fuel: each unit
of fuel allows one loop iteration, so for a terminating range the
output is independent of any sufficiently large fuel. -/
def genAlphaFuel : ℕ → List ℕ → List ℕ → List (List ℕ)
  | 0, _, _ => []
  | fuel + 1, current, e =>
      if pyListLe current e then current :: genAlphaFuel fuel (incStr current) e
      else []

/-- Which branch of `generate_sequence` runs: the numeric branch, the
alphabetic branch, or the final `raise ValueError` branch. -/
inductive GenBranch
  | numeric
  | alphabetic
  | rangeError
deriving DecidableEq

/-- Branch dispatch of `DomainChecker.generate_sequence`
(src/domain_checker.py lines 85, 95, 110). -/
def genBranch (s e : List ℕ) : GenBranch :=
  if isdigit s && isdigit e then .numeric
  else if isalpha s && isalpha e && s.length == e.length then .alphabetic
  else .rangeError

/-- The alphabetic generator loop terminates on `(s, e)` when the
`current <= end_chars` test eventually fails along the increment
iteration. -/
def terminatesAlpha (s e : List ℕ) : Prop :=
  ∃ n, pyListLe (incStr^[n] s) e = false

/-- Every character of the string is a lowercase ASCII letter.  This is
the invariant the alphabetic generator's loop state satisfies. -/
def allLower (s : List ℕ) : Prop := ∀ c ∈ s, 97 ≤ c ∧ c ≤ 122

instance (s : List ℕ) : Decidable (allLower s) :=
  inferInstanceAs (Decidable (∀ c ∈ s, 97 ≤ c ∧ c ≤ 122))

/-- Base-26 value of a lowercase string read most significant character
first (the value the lexicographic order of same-length lowercase
strings agrees with). -/
def valBE : List ℕ → ℕ
  | [] => 0
  | c :: cs => (c - 97) * 26 ^ cs.length + valBE cs

/-- Base-26 value of a REVERSED lowercase string (least significant
character first); matches the rightmost-first walk of the increment
loop. -/
def valRev : List ℕ → ℕ
  | [] => 0
  | c :: cs => (c - 97) + 26 * valRev cs

/-- Model of Python `math.ceil(a / b)` for non-negative `a` and positive
`b`, as used for the batch size in `check_domains`
(src/domain_checker.py line 176). -/
def ceilDiv (a b : ℕ) : ℕ := (a + b - 1) / b

/-- The batch slicing `[domains[i:i + batch_size] for i in
range(0, total_domains, batch_size)]` (lines 179-182), written with
fuel so that it is structurally recursive; `fuel = l.length` is enough
whenever the batch size is positive. -/
def chunksFuel : ℕ → ℕ → List α → List (List α)
  | 0, _, _ => []
  | _ + 1, _, [] => []
  | fuel + 1, bs, x :: xs =>
      (x :: xs).take bs :: chunksFuel fuel bs ((x :: xs).drop bs)

/-- The partitioning step of `DomainChecker.check_domains` (lines
176-182).  `numThreads = 0` makes `total_domains / self.num_threads`
raise `ZeroDivisionError`; a zero batch size (which happens exactly for
an empty label list and a positive thread count) makes
`range(0, total_domains, batch_size)` raise
`ValueError: range() arg 3 must not be zero`. -/
def partitionBatches (labels : List α) (numThreads : ℕ) :
    Except String (List (List α)) :=
  if numThreads = 0 then .error "ZeroDivisionError"
  else
    let batch_size := ceilDiv labels.length numThreads
    if batch_size = 0 then .error "ValueError: range arg 3 must not be zero"
    else .ok (chunksFuel labels.length batch_size labels)

/-- Outcome of the `subprocess.run(['whois', domain], ...)` call in
`check_domain`: either it returns with some captured standard output,
or it raises `subprocess.SubprocessError`. -/
inductive LookupOutcome
  | success (stdout : List ℕ)
  | failure
deriving DecidableEq

/-- The exact case-sensitive availability marker
(src/domain_checker.py line 127). -/
def marker : List ℕ := codes "DOMAIN NOT FOUND"

/-- Model of the Python substring test
`"DOMAIN NOT FOUND" in result.stdout`. -/
def containsMarker (stdout : List ℕ) : Bool := decide (marker <:+: stdout)

/-- Observable effects of one `check_domain` call: the returned
`(domain, availability)` pair, the `write_to_file` calls it makes, and
how many times it sleeps for the rate-limit interval. -/
structure CheckEffects where
  result : List ℕ × Bool
  writes : List (List ℕ × Bool)
  sleeps : ℕ
deriving DecidableEq

/-- Model of `DomainChecker.check_domain` (src/domain_checker.py lines
113-141).  On a successful subprocess call it classifies by the marker
test, writes the result to a file, sleeps once and returns; when
`subprocess.run` raises, the handler at line 138 catches the error,
prints a message (console only), and returns `(domain, False)` without
writing and without sleeping. -/
def check_domain (domain : List ℕ) (out : LookupOutcome) : CheckEffects :=
  match out with
  | .success stdout =>
      let is_available := containsMarker stdout
      { result := (domain, is_available)
        writes := [(domain, is_available)]
        sleeps := 1 }
  | .failure =>
      { result := (domain, false), writes := [], sleeps := 0 }

/-- Model of `DomainChecker.write_to_file` (lines 66-71): a pair of
append-only files (available, registered), each a list of domain
lines; the boolean selects the target file. -/
def write_to_file (files : List (List ℕ) × List (List ℕ))
    (domain : List ℕ) (is_available : Bool) :
    List (List ℕ) × List (List ℕ) :=
  if is_available then (files.1 ++ [domain], files.2)
  else (files.1, files.2 ++ [domain])

/-- Replay a log of `write_to_file` calls against a file-pair state. -/
def applyWrites (files : List (List ℕ) × List (List ℕ))
    (ws : List (List ℕ × Bool)) : List (List ℕ) × List (List ℕ) :=
  ws.foldl (fun fs w => write_to_file fs w.1 w.2) files

/-- The f-string `f"{domain}.{self.tld}"` of `check_domains_worker`
(line 155); `46` is the code point of `'.'`. -/
def addTld (tld : List ℕ) (label : List ℕ) : List ℕ := label ++ 46 :: tld

/-- Model of `DomainChecker.check_domains_worker` (lines 143-158): the
worker loops over its batch sequentially, qualifying each label with
the TLD and appending the result of `check_domain`; the lookup oracle
supplies each subprocess outcome. -/
def check_domains_worker (lookup : List ℕ → LookupOutcome) (tld : List ℕ)
    (domains : List (List ℕ)) : List (List ℕ × Bool) :=
  domains.map (fun domain =>
    (check_domain (addTld tld domain) (lookup (addTld tld domain))).result)

/-- The result-collection loop of `check_domains` (lines 193-200): each
finished task either returns its batch's result list (extended onto the
aggregate) or raises (the exception is caught, the batch index is
logged to the console, and nothing is added). -/
def collectResults (outcomes : List (Except String (List (List ℕ × Bool)))) :
    List (List ℕ × Bool) :=
  outcomes.foldl
    (fun acc o => match o with | .ok rs => acc ++ rs | .error _ => acc) []

/-- The summary count `sum(1 for _, available in results if available)`
(line 203). -/
def availableCount (rs : List (List ℕ × Bool)) : ℕ :=
  (rs.filter (fun r => r.2)).length

/-- The reported registered total `len(results) - available_count`
(line 206). -/
def registeredCount (rs : List (List ℕ × Bool)) : ℕ :=
  rs.length - availableCount rs

/-- The worker-count clamp of `DomainChecker.__init__` (lines 41-42):
`if num_threads > 10: num_threads = 10`, and nothing else. -/
def clampThreads (n : ℤ) : ℤ := if n > 10 then 10 else n

/-- The `"=" * 50` separator line of the file headers (lines 60, 64). -/
def headerSep : String := String.mk (List.replicate 50 '=')

/-- The two output files as created by `__init__` (lines 57-64): each
starts with a title line naming the TLD and a separator line, before
any result is appended. -/
def initFiles (tld : String) : List String × List String :=
  (["Available Domains (TLD: ." ++ tld ++ ")", headerSep],
   ["Registered Domains (TLD: ." ++ tld ++ ")", headerSep])

/-- Model of the partition/dispatch/aggregate pipeline of
`DomainChecker.check_domains` (lines 160-209), taking the already
generated label list as input: partition the labels (which can raise,
modelled by `Except`), run one worker per batch, and collect the batch
results.  The summary error paths happen before any worker runs, so an
`.error` outcome means no lookup was ever invoked. -/
def check_domains (lookup : List ℕ → LookupOutcome) (tld : List ℕ)
    (numThreads : ℕ) (labels : List (List ℕ)) :
    Except String (List (List ℕ × Bool)) :=
  match partitionBatches labels numThreads with
  | .error msg => .error msg
  | .ok batches =>
      .ok (collectResults (batches.map
        (fun batch => .ok (check_domains_worker lookup tld batch))))

/-! Facts about the numeric branch. -/

theorem decDigitsFuel_eq_digits : ∀ fuel n, n ≤ fuel → decDigitsFuel fuel n = Nat.digits 10 n := by
  intro fuel
  induction fuel with
  | zero =>
    intro n hn
    have h0 : n = 0 := Nat.le_zero.mp hn
    subst h0
    simp [decDigitsFuel]
  | succ f ih =>
    intro n hn
    by_cases h0 : n = 0
    · subst h0; simp [decDigitsFuel]
    · have hdiv : n / 10 < n := Nat.div_lt_self (Nat.pos_of_ne_zero h0) (by norm_num)
      rw [decDigitsFuel, if_neg h0, ih (n / 10) (by omega),
        Nat.digits_def' (by norm_num : (1:ℕ) < 10) (Nat.pos_of_ne_zero h0)]

theorem natStr_eq (n : ℕ) :
    natStr n = if n = 0 then [48] else (Nat.digits 10 n).reverse.map (· + 48) := by
  rw [natStr, decDigitsFuel_eq_digits n n le_rfl]

theorem natStr_length_le {n k : ℕ} (hk : 1 ≤ k) (h : n < 10 ^ k) :
    (natStr n).length ≤ k := by
  rw [natStr_eq]
  by_cases h0 : n = 0
  · simp [h0, hk]
  · rw [if_neg h0]
    have hlog : Nat.log 10 n < k := Nat.log_lt_of_lt_pow h0 h
    have hlen : (Nat.digits 10 n).length = Nat.log 10 n + 1 :=
      Nat.digits_len 10 n (by norm_num) h0
    simp [hlen]
    omega

theorem strToNat_lt {s : List ℕ} (hs : ∀ c ∈ s, c ≤ 57) :
    strToNat s < 10 ^ s.length := by
  induction s with
  | nil => simp [strToNat]
  | cons c cs ih =>
    have hc : c - 48 ≤ 9 := by have := hs c (by simp); omega
    have hcs : strToNat cs < 10 ^ cs.length := ih (fun x hx => hs x (by simp [hx]))
    have h1 : (c - 48) * 10 ^ cs.length ≤ 9 * 10 ^ cs.length :=
      Nat.mul_le_mul_right _ hc
    have h2 : (10:ℕ) ^ (cs.length + 1) = 10 * 10 ^ cs.length := by ring
    simp only [strToNat, List.length_cons, h2]
    omega

theorem strToNat_append (xs ys : List ℕ) :
    strToNat (xs ++ ys) = strToNat xs * 10 ^ ys.length + strToNat ys := by
  induction xs with
  | nil => simp [strToNat]
  | cons c cs ih =>
    simp only [List.cons_append, strToNat, List.append_eq, List.length_append, ih, pow_add]
    ring

theorem strToNat_rev_map (l : List ℕ) :
    strToNat (l.reverse.map (· + 48)) = Nat.ofDigits 10 l := by
  induction l with
  | nil => simp [strToNat, Nat.ofDigits_nil]
  | cons d ds ih =>
    simp only [List.reverse_cons, List.map_append, List.map_cons, List.map_nil]
    rw [strToNat_append, ih, Nat.ofDigits_cons]
    simp [strToNat]
    ring

theorem strToNat_natStr (n : ℕ) : strToNat (natStr n) = n := by
  rw [natStr_eq]
  by_cases h0 : n = 0
  · simp [h0, strToNat]
  · rw [if_neg h0, strToNat_rev_map, Nat.ofDigits_digits]

theorem strToNat_replicate_zero (k : ℕ) : strToNat (List.replicate k 48) = 0 := by
  induction k with
  | zero => rfl
  | succ m ih => simp [List.replicate_succ, strToNat, ih]

theorem strToNat_zfill (w : ℕ) (s : List ℕ) : strToNat (zfill w s) = strToNat s := by
  rw [zfill, strToNat_append, strToNat_replicate_zero]
  simp

theorem zfill_length (w : ℕ) (s : List ℕ) : (zfill w s).length = max w s.length := by
  simp [zfill]
  omega

theorem isdigit_iff {s : List ℕ} :
    isdigit s = true ↔ s ≠ [] ∧ ∀ c ∈ s, 48 ≤ c ∧ c ≤ 57 := by
  simp [isdigit, List.all_eq_true, List.isEmpty_iff]

theorem genBranch_numeric {s e : List ℕ} (h : genBranch s e = .numeric) :
    isdigit s = true ∧ isdigit e = true := by
  unfold genBranch at h
  by_cases h1 : (isdigit s && isdigit e) = true
  · exact Bool.and_eq_true_iff.mp h1
  · rw [if_neg h1] at h
    by_cases h2 : (isalpha s && isalpha e && s.length == e.length) = true
    · rw [if_pos h2] at h; exact absurd h (by decide)
    · rw [if_neg h2] at h; exact absurd h (by decide)

/-- C1: for every numeric range (both endpoints pass `isdigit`, so the
numeric branch of `generate_sequence` runs) the generator yields exactly
the integers from `int(start)` to `int(end)` inclusive in ascending
order (their values under `strToNat` are precisely
`range' start_num (end_num + 1 - start_num)`), each zero-padded to width
`max(len(start), len(end))`; when `end < start` the sequence is empty
rather than an error; and concretely
`generate_sequence("007", "010")` yields `["007", "008", "009", "010"]`. -/
theorem c1_generate_sequence_numeric :
    (∀ s e, genBranch s e = .numeric →
      (genNumeric s e).map strToNat =
        List.range' (strToNat s) (strToNat e + 1 - strToNat s) ∧
      (∀ x ∈ genNumeric s e, x.length = max s.length e.length) ∧
      (strToNat e < strToNat s → genNumeric s e = [])) ∧
    genNumeric (codes "007") (codes "010") =
      [codes "007", codes "008", codes "009", codes "010"] := by
  constructor
  · intro s e h
    obtain ⟨hs, he⟩ := genBranch_numeric h
    refine ⟨?_, ?_, ?_⟩
    · rw [genNumeric, List.map_map]
      have hfun : (strToNat ∘ fun num => zfill (max s.length e.length) (natStr num)) = id := by
        funext n
        simp [Function.comp, strToNat_zfill, strToNat_natStr]
      rw [hfun, List.map_id]
    · intro x hx
      rw [genNumeric] at hx
      simp only [List.mem_map] at hx
      obtain ⟨n, hn, rfl⟩ := hx
      have hn' := (List.mem_range'_1.mp hn).2
      obtain ⟨henil, hedig⟩ := isdigit_iff.mp he
      obtain ⟨hsnil, hsdig⟩ := isdigit_iff.mp hs
      have hepos : 1 ≤ e.length := by
        cases e with
        | nil => exact absurd rfl henil
        | cons _ _ => simp
      have hbound : strToNat e < 10 ^ e.length :=
        strToNat_lt (fun c hc => (hedig c hc).2)
      have hsbound : strToNat s < 10 ^ s.length :=
        strToNat_lt (fun c hc => (hsdig c hc).2)
      have hcase : n ≤ strToNat e ∨ n < strToNat s := by omega
      have hnlt : n < 10 ^ max s.length e.length := by
        rcases hcase with h1 | h1
        · exact lt_of_lt_of_le (lt_of_le_of_lt h1 hbound)
            (Nat.pow_le_pow_right (by norm_num) (le_max_right _ _))
        · exact lt_of_lt_of_le (lt_trans h1 hsbound)
            (Nat.pow_le_pow_right (by norm_num) (le_max_left _ _))
      have hlen : (natStr n).length ≤ max s.length e.length :=
        natStr_length_le (le_trans hepos (le_max_right _ _)) hnlt
      rw [zfill_length]
      omega
    · intro hlt
      rw [genNumeric]
      have hz : strToNat e + 1 - strToNat s = 0 := by omega
      rw [hz]
      rfl
  · decide

/-- C1 witness: the numeric theorem applied to the concrete range
`("007", "010")`. -/
theorem c1_generate_sequence_numeric_witness :
    (genNumeric (codes "007") (codes "010")).map strToNat =
      List.range' (strToNat (codes "007"))
        (strToNat (codes "010") + 1 - strToNat (codes "007")) :=
  (c1_generate_sequence_numeric.1 (codes "007") (codes "010") (by decide)).1

/-! Facts about the alphabetic branch. -/

theorem genAlphaFuel_succ (n : ℕ) (c e : List ℕ) :
    genAlphaFuel (n + 1) c e =
      if pyListLe c e then c :: genAlphaFuel n (incStr c) e else [] := rfl

theorem genAlphaFuel_stop {c e : List ℕ} (h : pyListLe c e = false) :
    ∀ fuel, genAlphaFuel fuel c e = [] := by
  intro fuel
  cases fuel with
  | zero => rfl
  | succ n => rw [genAlphaFuel_succ, h]; rfl

theorem genAlphaFuel_step {c e : List ℕ} (h : pyListLe c e = true) (n : ℕ) :
    genAlphaFuel (n + 1) c e = c :: genAlphaFuel n (incStr c) e := by
  rw [genAlphaFuel_succ, h]
  rfl

theorem genAlphaFuel_eq_takeWhile (fuel : ℕ) (c e : List ℕ) :
    genAlphaFuel fuel c e =
      ((List.range fuel).map (fun n => incStr^[n] c)).takeWhile
        (fun cur => pyListLe cur e) := by
  induction fuel generalizing c with
  | zero => rfl
  | succ n ih =>
    rw [List.range_succ_eq_map, List.map_cons, List.map_map, List.takeWhile_cons]
    have hcomp : ((fun n => incStr^[n] c) ∘ Nat.succ) =
        fun n => incStr^[n] (incStr c) := by
      funext m
      simp [Function.comp, Function.iterate_succ_apply]
    rw [hcomp, Function.iterate_zero_apply, ← ih, genAlphaFuel_succ]

theorem incRev_length (r : List ℕ) : (incRev r).length = r.length := by
  induction r with
  | nil => rfl
  | cons c cs ih =>
    by_cases h : c < 122 <;> simp [incRev, h, ih]

theorem incStr_length (s : List ℕ) : (incStr s).length = s.length := by
  simp [incStr, incRev_length]

theorem incRev_allLower {r : List ℕ} (h : allLower r) : allLower (incRev r) := by
  induction r with
  | nil => exact h
  | cons c cs ih =>
    have hc := h c (by simp)
    have hcs : allLower cs := fun x hx => h x (by simp [hx])
    intro x hx
    by_cases hlt : c < 122
    · simp [incRev, hlt] at hx
      rcases hx with rfl | h1
      · omega
      · exact hcs x h1
    · simp [incRev, hlt] at hx
      rcases hx with rfl | h1
      · omega
      · exact ih hcs x h1

theorem allLower_reverse {s : List ℕ} : allLower s.reverse ↔ allLower s := by
  constructor <;> intro h c hc <;> exact h c (by simpa using hc)

theorem incStr_allLower {s : List ℕ} (h : allLower s) : allLower (incStr s) := by
  rw [incStr]
  exact allLower_reverse.mpr (incRev_allLower (allLower_reverse.mpr h))

theorem pyListLe_all_z {s : List ℕ} (h : allLower s) :
    pyListLe s (List.replicate s.length 122) = true := by
  induction s with
  | nil => rfl
  | cons c cs ih =>
    have hc := h c (by simp)
    have hcs : allLower cs := fun x hx => h x (by simp [hx])
    simp only [List.length_cons, List.replicate_succ, pyListLe]
    by_cases hlt : c < 122
    · rw [if_pos hlt]
    · rw [if_neg hlt, if_neg (by omega), ih hcs]

theorem iterate_incStr_invariant {s : List ℕ} (h : allLower s) (n : ℕ) :
    allLower (incStr^[n] s) ∧ (incStr^[n] s).length = s.length := by
  induction n with
  | zero => exact ⟨h, rfl⟩
  | succ m ih =>
    rw [Function.iterate_succ_apply']
    exact ⟨incStr_allLower ih.1, by rw [incStr_length, ih.2]⟩

/-- C2: for every pair of pure alphabetic strings of identical length
(the alphabetic branch of `generate_sequence` runs), the loop emits the
odometer iteration `incStr^[n]` of `start`'s lowercase form, in order,
for exactly as long as the current value stays lexicographically ≤
`end`'s lowercase form (a `takeWhile` over the iteration, for any fuel
bounding the number of loop iterations); concretely
`generate_sequence("aa", "ac")` yields `["aa", "ab", "ac"]` (any fuel
of at least 3 gives this list, so the loop exits there). -/
theorem c2_generate_sequence_alphabetic :
    (∀ s e fuel, genBranch s e = .alphabetic →
      genAlphaFuel fuel (lowerStr s) (lowerStr e) =
        ((List.range fuel).map (fun n => incStr^[n] (lowerStr s))).takeWhile
          (fun cur => pyListLe cur (lowerStr e))) ∧
    genBranch (codes "aa") (codes "ac") = .alphabetic ∧
    (∀ fuel, 3 ≤ fuel →
      genAlphaFuel fuel (lowerStr (codes "aa")) (lowerStr (codes "ac")) =
        [codes "aa", codes "ab", codes "ac"]) := by
  refine ⟨fun s e fuel _ => genAlphaFuel_eq_takeWhile fuel _ _, by decide, ?_⟩
  intro fuel h
  obtain ⟨k, rfl⟩ : ∃ k, fuel = k + 1 + 1 + 1 := ⟨fuel - 3, by omega⟩
  show genAlphaFuel (k + 1 + 1 + 1) [97, 97] [97, 99] =
    [[97, 97], [97, 98], [97, 99]]
  rw [genAlphaFuel_step (c := [97, 97]) (e := [97, 99]) (by decide),
    (by decide : incStr [97, 97] = [97, 98]),
    genAlphaFuel_step (c := [97, 98]) (e := [97, 99]) (by decide),
    (by decide : incStr [97, 98] = [97, 99]),
    genAlphaFuel_step (c := [97, 99]) (e := [97, 99]) (by decide),
    (by decide : incStr [97, 99] = [97, 100]),
    genAlphaFuel_stop (by decide) k]

/-- C2 witness: the alphabetic theorem applied to the concrete range
`("aa", "ac")` with fuel 3. -/
theorem c2_generate_sequence_alphabetic_witness :
    genAlphaFuel 3 (lowerStr (codes "aa")) (lowerStr (codes "ac")) =
      [codes "aa", codes "ab", codes "ac"] :=
  c2_generate_sequence_alphabetic.2.2 3 (by norm_num)

/-- C9 counterexample: `("aa", "zz")` is a valid alphabetic range whose
end is the all-z string, and on it the generator loop does NOT
terminate: after yielding `"zz"` the increment wraps the current value
around to `"aa"`, which is again ≤ `"zz"`, so the `current <= end` test
never fails, contradicting the claim that it eventually does. -/
theorem c9_counterexample :
    genBranch (codes "aa") (codes "zz") = .alphabetic ∧
    ¬ terminatesAlpha (lowerStr (codes "aa")) (lowerStr (codes "zz")) := by
  refine ⟨by decide, ?_⟩
  rintro ⟨n, hn⟩
  have hlow : allLower (lowerStr (codes "aa")) := by decide
  obtain ⟨hl, hlen⟩ := iterate_incStr_invariant hlow n
  have hz : lowerStr (codes "zz") =
      List.replicate (incStr^[n] (lowerStr (codes "aa"))).length 122 := by
    rw [hlen]
    decide
  rw [hz, pyListLe_all_z hl] at hn
  exact Bool.noConfusion hn

/-! Base-26 value of lowercase strings, used to prove that the
alphabetic loop terminates whenever the end string is not all-z. -/

theorem valBE_append (xs ys : List ℕ) :
    valBE (xs ++ ys) = valBE xs * 26 ^ ys.length + valBE ys := by
  induction xs with
  | nil => simp [valBE]
  | cons c cs ih =>
    simp only [List.cons_append, valBE, List.append_eq, List.length_append,
      ih, pow_add]
    ring

theorem valBE_reverse (r : List ℕ) : valBE r.reverse = valRev r := by
  induction r with
  | nil => rfl
  | cons c cs ih =>
    rw [List.reverse_cons, valBE_append, ih]
    simp [valBE, valRev]
    ring

theorem valBE_lt {s : List ℕ} (h : allLower s) : valBE s < 26 ^ s.length := by
  induction s with
  | nil => simp [valBE]
  | cons c cs ih =>
    have hc := h c (by simp)
    have hcs := ih (fun x hx => h x (by simp [hx]))
    have h1 : (c - 97) * 26 ^ cs.length ≤ 25 * 26 ^ cs.length :=
      Nat.mul_le_mul_right _ (by omega)
    have h2 : (26:ℕ) ^ (cs.length + 1) = 26 * 26 ^ cs.length := by ring
    simp only [valBE, List.length_cons, h2]
    omega

theorem valBE_lt_of_ne {e : List ℕ} (h : allLower e)
    (hne : e ≠ List.replicate e.length 122) :
    valBE e + 1 < 26 ^ e.length := by
  induction e with
  | nil => exact absurd rfl hne
  | cons c cs ih =>
    have hc := h c (by simp)
    have hcs : allLower cs := fun x hx => h x (by simp [hx])
    have hlt := valBE_lt hcs
    have hX : 0 < 26 ^ cs.length := pow_pos (by norm_num) _
    have h2 : (26:ℕ) ^ (cs.length + 1) = 26 * 26 ^ cs.length := by ring
    by_cases hcz : c = 122
    · have hcs_ne : cs ≠ List.replicate cs.length 122 := by
        intro hcseq
        apply hne
        rw [List.length_cons, List.replicate_succ, hcz, ← hcseq]
      have hrec := ih hcs hcs_ne
      simp only [valBE, List.length_cons, h2, hcz]
      omega
    · have h1 : (c - 97) * 26 ^ cs.length ≤ 24 * 26 ^ cs.length :=
        Nat.mul_le_mul_right _ (by omega)
      simp only [valBE, List.length_cons, h2]
      omega

theorem valRev_incRev {r : List ℕ} (h : allLower r)
    (hlt : valRev r + 1 < 26 ^ r.length) :
    valRev (incRev r) = valRev r + 1 := by
  induction r with
  | nil => simp [valRev] at hlt
  | cons c cs ih =>
    have hc := h c (by simp)
    have hcs : allLower cs := fun x hx => h x (by simp [hx])
    by_cases hlt2 : c < 122
    · simp [incRev, hlt2, valRev]
      omega
    · have hcz : c = 122 := by omega
      subst hcz
      have h2 : (26:ℕ) ^ (cs.length + 1) = 26 * 26 ^ cs.length := by ring
      have hv : valRev cs + 1 < 26 ^ cs.length := by
        simp only [valRev, List.length_cons, h2] at hlt
        omega
      simp [incRev, valRev, ih hcs hv]
      omega

theorem valBE_incStr {s : List ℕ} (h : allLower s)
    (hlt : valBE s + 1 < 26 ^ s.length) :
    valBE (incStr s) = valBE s + 1 := by
  have hrev : allLower s.reverse := allLower_reverse.mpr h
  have hval : valRev s.reverse = valBE s := by
    rw [← valBE_reverse, List.reverse_reverse]
  rw [incStr, valBE_reverse,
    valRev_incRev hrev (by rw [hval, List.length_reverse]; exact hlt), hval]

theorem pyListLe_iff_valBE : ∀ {a b : List ℕ}, a.length = b.length →
    allLower a → allLower b → (pyListLe a b = true ↔ valBE a ≤ valBE b) := by
  intro a
  induction a with
  | nil =>
    intro b hlen _ _
    have hb : b = [] := List.eq_nil_of_length_eq_zero hlen.symm
    subst hb
    simp [pyListLe, valBE]
  | cons x xs ih =>
    intro b hlen ha hb
    cases b with
    | nil => simp at hlen
    | cons y ys =>
      have hx := ha x (by simp)
      have hy := hb y (by simp)
      have hxs : allLower xs := fun c hc => ha c (by simp [hc])
      have hys : allLower ys := fun c hc => hb c (by simp [hc])
      have hlen2 : xs.length = ys.length := by simpa using hlen
      have hvx := valBE_lt hxs
      have hvy := valBE_lt hys
      rw [hlen2] at hvx
      simp only [pyListLe, valBE, hlen2]
      by_cases h1 : x < y
      · simp only [if_pos h1, true_iff]
        have hmul : ((x - 97) + 1) * 26 ^ ys.length ≤ (y - 97) * 26 ^ ys.length :=
          Nat.mul_le_mul_right _ (by omega)
        have hexp : ((x - 97) + 1) * 26 ^ ys.length =
            (x - 97) * 26 ^ ys.length + 26 ^ ys.length := by ring
        rw [hexp] at hmul
        linarith
      · by_cases h2 : y < x
        · rw [if_neg h1, if_pos h2]
          have hmul : ((y - 97) + 1) * 26 ^ ys.length ≤ (x - 97) * 26 ^ ys.length :=
            Nat.mul_le_mul_right _ (by omega)
          have hexp : ((y - 97) + 1) * 26 ^ ys.length =
              (y - 97) * 26 ^ ys.length + 26 ^ ys.length := by ring
          rw [hexp] at hmul
          exact iff_of_false (by simp) (Nat.not_le.mpr (by linarith))
        · have hxy : x = y := by omega
          subst hxy
          simp only [if_neg h1, if_neg h2]
          rw [ih hlen2 hxs hys]
          exact (Nat.add_le_add_iff_left).symm

theorem iterate_incStr_valBE {s : List ℕ} (h : allLower s) :
    ∀ m, valBE s + m < 26 ^ s.length →
      valBE (incStr^[m] s) = valBE s + m := by
  intro m
  induction m with
  | zero => intro _; simp
  | succ k ih =>
    intro hm
    have hk : valBE s + k < 26 ^ s.length := by omega
    have hval := ih hk
    obtain ⟨hlow, hlen⟩ := iterate_incStr_invariant h k
    rw [Function.iterate_succ_apply',
      valBE_incStr hlow (by rw [hval, hlen]; omega), hval]
    omega

theorem genBranch_alphabetic {s e : List ℕ} (h : genBranch s e = .alphabetic) :
    isalpha s = true ∧ isalpha e = true ∧ s.length = e.length := by
  unfold genBranch at h
  by_cases h1 : (isdigit s && isdigit e) = true
  · rw [if_pos h1] at h
    exact absurd h (by decide)
  · rw [if_neg h1] at h
    by_cases h2 : (isalpha s && isalpha e && s.length == e.length) = true
    · simp only [Bool.and_eq_true, beq_iff_eq] at h2
      exact ⟨h2.1.1, h2.1.2, h2.2⟩
    · rw [if_neg h2] at h
      exact absurd h (by decide)

theorem isalpha_lowerStr {s : List ℕ} (h : isalpha s = true) :
    allLower (lowerStr s) := by
  simp only [isalpha, Bool.and_eq_true, List.all_eq_true, decide_eq_true_eq,
    Bool.or_eq_true] at h
  intro c hc
  simp only [lowerStr, List.mem_map] at hc
  obtain ⟨x, hx, rfl⟩ := hc
  have := h.2 x hx
  unfold lowerChar
  split <;> omega

/-- C9 amended: for every valid alphabetic range whose end's lowercase
form is NOT the all-z string of its length, the generator loop does
terminate (the `current <= end` comparison eventually fails).  When the
end IS all-z and start ≤ end, the loop runs forever (see the
counterexample): the increment wraps all-z around to all-a without any
cap, and every lowercase string of that length stays ≤ the end. -/
theorem c9_alphabetic_termination :
    ∀ s e, genBranch s e = .alphabetic →
      lowerStr e ≠ List.replicate (lowerStr e).length 122 →
      terminatesAlpha (lowerStr s) (lowerStr e) := by
  intro s e hbr hne
  obtain ⟨has, hae, hlen⟩ := genBranch_alphabetic hbr
  have hla : allLower (lowerStr s) := isalpha_lowerStr has
  have hlb : allLower (lowerStr e) := isalpha_lowerStr hae
  have hlen2 : (lowerStr s).length = (lowerStr e).length := by
    simp [lowerStr, hlen]
  by_cases h0 : pyListLe (lowerStr s) (lowerStr e) = false
  · exact ⟨0, h0⟩
  · have h0' : pyListLe (lowerStr s) (lowerStr e) = true := by
      cases hb : pyListLe (lowerStr s) (lowerStr e)
      · exact absurd hb h0
      · rfl
    have hvle : valBE (lowerStr s) ≤ valBE (lowerStr e) :=
      (pyListLe_iff_valBE hlen2 hla hlb).mp h0'
    have hblt : valBE (lowerStr e) + 1 < 26 ^ (lowerStr e).length :=
      valBE_lt_of_ne hlb hne
    refine ⟨valBE (lowerStr e) + 1 - valBE (lowerStr s), ?_⟩
    have hsum : valBE (lowerStr s) +
        (valBE (lowerStr e) + 1 - valBE (lowerStr s)) =
        valBE (lowerStr e) + 1 := by omega
    have hmlt : valBE (lowerStr s) +
        (valBE (lowerStr e) + 1 - valBE (lowerStr s)) <
        26 ^ (lowerStr s).length := by
      rw [hsum, hlen2]
      exact hblt
    have hv := iterate_incStr_valBE hla _ hmlt
    rw [hsum] at hv
    obtain ⟨hitl, hitlen⟩ :=
      iterate_incStr_invariant hla (valBE (lowerStr e) + 1 - valBE (lowerStr s))
    cases hb2 : pyListLe
        (incStr^[valBE (lowerStr e) + 1 - valBE (lowerStr s)] (lowerStr s))
        (lowerStr e)
    · rfl
    · exfalso
      have := (pyListLe_iff_valBE (by rw [hitlen]; exact hlen2) hitl hlb).mp hb2
      rw [hv] at this
      omega

/-- C9 amended witness: the termination theorem applied to the concrete
valid range `("aa", "ac")`, whose end is not all-z. -/
theorem c9_alphabetic_termination_witness :
    terminatesAlpha (lowerStr (codes "aa")) (lowerStr (codes "ac")) :=
  c9_alphabetic_termination (codes "aa") (codes "ac") (by decide) (by decide)

/-! Facts about batch partitioning. -/

theorem ceilDiv_eq (a b : ℕ) : ceilDiv a b = a ⌈/⌉ b :=
  (Nat.ceilDiv_eq_add_pred_div a b).symm

theorem ceilDiv_pos {n W : ℕ} (hn : 0 < n) (hW : 0 < W) : 0 < ceilDiv n W := by
  have := (Nat.one_le_div_iff hW).mpr (show W ≤ n + W - 1 by omega)
  rw [ceilDiv]
  omega

theorem ceilDiv_step {len bs : ℕ} (hbs : 0 < bs) (hlen : 0 < len) :
    ceilDiv len bs = 1 + ceilDiv (len - bs) bs := by
  rcases le_or_lt len bs with hle | hlt
  · have h1 : len - bs = 0 := by omega
    have h2 : (0 + bs - 1) / bs = 0 := Nat.div_eq_of_lt (by omega)
    have h3 : (len + bs - 1) / bs = 1 :=
      Nat.div_eq_of_lt_le (by omega) (by omega)
    rw [h1, ceilDiv, ceilDiv, h2, h3]
  · have heq : len + bs - 1 = (len - bs + bs - 1) + bs := by omega
    rw [ceilDiv, ceilDiv, heq, Nat.add_div_right _ hbs]
    omega

theorem ceilDiv_ceilDiv {n W : ℕ} (hn : 0 < n) (hW : 0 < W) :
    ceilDiv n (ceilDiv n W) ≤ W := by
  have hc : 0 < ceilDiv n W := ceilDiv_pos hn hW
  have hcw : n ≤ ceilDiv n W * W := by
    have hle := le_smul_ceilDiv hW (b := n)
    rw [smul_eq_mul] at hle
    rw [ceilDiv_eq, mul_comm]
    exact hle
  rw [ceilDiv_eq]
  exact (ceilDiv_le_iff_le_mul hc).mpr hcw

theorem chunksFuel_cons (f bs : ℕ) (x : α) (xs : List α) :
    chunksFuel (f + 1) bs (x :: xs) =
      (x :: xs).take bs :: chunksFuel f bs ((x :: xs).drop bs) := rfl

theorem chunksFuel_join : ∀ (fuel bs : ℕ) (l : List α), 0 < bs →
    l.length ≤ fuel → (chunksFuel fuel bs l).flatten = l := by
  intro fuel
  induction fuel with
  | zero =>
    intro bs l _ hl
    have hnil : l = [] := List.eq_nil_of_length_eq_zero (Nat.le_zero.mp hl)
    subst hnil
    rfl
  | succ f ih =>
    intro bs l hbs hl
    cases l with
    | nil => rfl
    | cons x xs =>
      rw [chunksFuel_cons, List.flatten_cons,
        ih bs _ hbs (by rw [List.length_drop]; simp only [List.length_cons] at hl ⊢; omega),
        List.take_append_drop]

theorem chunksFuel_mem {bs : ℕ} (hbs : 0 < bs) :
    ∀ (fuel : ℕ) (l : List α), ∀ b ∈ chunksFuel fuel bs l,
      0 < b.length ∧ b.length ≤ bs := by
  intro fuel
  induction fuel with
  | zero =>
    intro l b hb
    simp [chunksFuel] at hb
  | succ f ih =>
    intro l b hb
    cases l with
    | nil => simp [chunksFuel] at hb
    | cons x xs =>
      rw [chunksFuel_cons] at hb
      rcases List.mem_cons.mp hb with rfl | h1
      · constructor
        · simp only [List.length_take, List.length_cons]
          omega
        · simp only [List.length_take]
          omega
      · exact ih _ b h1

theorem chunksFuel_length : ∀ (fuel bs : ℕ) (l : List α), 0 < bs →
    l.length ≤ fuel → (chunksFuel fuel bs l).length ≤ ceilDiv l.length bs := by
  intro fuel
  induction fuel with
  | zero =>
    intro bs l _ hl
    have hnil : l = [] := List.eq_nil_of_length_eq_zero (Nat.le_zero.mp hl)
    subst hnil
    simp [chunksFuel]
  | succ f ih =>
    intro bs l hbs hl
    cases l with
    | nil => simp [chunksFuel]
    | cons x xs =>
      rw [chunksFuel_cons]
      have hrec := ih bs ((x :: xs).drop bs) hbs
        (by rw [List.length_drop]; simp only [List.length_cons] at hl ⊢; omega)
      rw [List.length_drop] at hrec
      have hstep := ceilDiv_step hbs (show 0 < (x :: xs).length by simp)
      simp only [List.length_cons] at hrec hstep ⊢
      omega

/-- C3 counterexample: the claim quantifies over every label list, but
for the empty list (reachable: a numeric range with `end < start`
generates zero labels) the code raises `ValueError` — batch size is
`ceil(0 / W) = 0` and `range(0, 0, 0)` rejects a zero step — so no
batches are produced at all. -/
theorem c3_counterexample :
    ¬ ∃ batches, partitionBatches ([] : List (List ℕ)) 4 = .ok batches := by
  rintro ⟨batches, h⟩
  have h2 : partitionBatches ([] : List (List ℕ)) 4 =
      .error "ValueError: range arg 3 must not be zero" := rfl
  rw [h2] at h
  exact Except.noConfusion h

/-- C3 amended: for every NONEMPTY label list `L` and worker count `W`
with `1 ≤ W ≤ 10`, partitioning computes batch size
`ceil(len(L) / W)`, succeeds, and slices `L` into contiguous nonempty
batches of at most that size whose concatenation in order reproduces
`L` exactly (total length preserved, no overlap, no gap).  The original
claim fails only at `L = []`, where the slicing raises `ValueError`
instead of producing an empty batch list. -/
theorem c3_partition_batches :
    ∀ (L : List (List ℕ)) (W : ℕ), 1 ≤ W → W ≤ 10 → L ≠ [] →
      ∃ batches, partitionBatches L W = .ok batches ∧
        batches.flatten = L ∧
        ∀ b ∈ batches, 0 < b.length ∧ b.length ≤ ceilDiv L.length W := by
  intro L W hW1 _ hL
  have hlen : 0 < L.length := List.length_pos.mpr hL
  have hbs : 0 < ceilDiv L.length W := ceilDiv_pos hlen (by omega)
  refine ⟨chunksFuel L.length (ceilDiv L.length W) L, ?_, ?_, ?_⟩
  · rw [partitionBatches, if_neg (by omega), if_neg (by omega)]
  · exact chunksFuel_join _ _ _ hbs le_rfl
  · exact chunksFuel_mem hbs _ _

/-- C3 amended witness: the partition theorem applied to the concrete
two-element label list with two workers. -/
theorem c3_partition_batches_witness :
    ∃ batches, partitionBatches [[97], [98]] 2 = .ok batches ∧
      batches.flatten = [[97], [98]] ∧
      ∀ b ∈ batches, 0 < b.length ∧
        b.length ≤ ceilDiv ([[97], [98]] : List (List ℕ)).length 2 :=
  c3_partition_batches [[97], [98]] 2 (by norm_num) (by norm_num) (by decide)

/-- C7: the constructor clamp is exactly `min(requested, 10)` for every
requested count, so requesting 25 workers gives a pool capacity of
exactly 10; and the number of submitted batch tasks never exceeds 10
when the pool runs with 10 workers, because
`ceil(total / ceil(total / 10)) ≤ 10`. -/
theorem c7_worker_clamp :
    (∀ n : ℤ, clampThreads n = min n 10) ∧
    clampThreads 25 = 10 ∧
    (∀ (L : List (List ℕ)) (batches : List (List (List ℕ))),
      partitionBatches L 10 = .ok batches → batches.length ≤ 10) := by
  refine ⟨?_, by decide, ?_⟩
  · intro n
    rw [clampThreads]
    split <;> omega
  · intro L batches h
    rw [partitionBatches] at h
    rw [if_neg (by omega)] at h
    by_cases hbs : ceilDiv L.length 10 = 0
    · rw [if_pos hbs] at h
      exact Except.noConfusion h
    · rw [if_neg hbs] at h
      have hbatches := (Except.ok.injEq _ _).mp h
      have hlen : 0 < L.length := by
        by_contra hc
        have : L.length = 0 := by omega
        apply hbs
        rw [ceilDiv, this]
      have hcount := chunksFuel_length L.length (ceilDiv L.length 10) L
        (by omega) le_rfl
      have hbound := ceilDiv_ceilDiv hlen (show (0:ℕ) < 10 by norm_num)
      rw [← hbatches]
      exact le_trans hcount hbound

/-- C7 witness: the clamp and task-count bound at concrete inputs. -/
theorem c7_worker_clamp_witness :
    ([[[97]]] : List (List (List ℕ))).length ≤ 10 :=
  c7_worker_clamp.2.2 [[97]] [[[97]]] rfl

/-- C10: the constructor clamp only enforces the upper bound — every
requested count ≤ 10, including 0 and negatives, is kept unchanged —
so a checker constructed with `num_threads = 0` reaches
`check_domains`, where computing the batch size divides by zero and
raises `ZeroDivisionError` whatever the label list and whatever the
lookup tool would have answered (so no lookup is ever performed), while
the two output files with their headers were already created by the
constructor. -/
theorem c10_zero_threads :
    (∀ n : ℤ, n ≤ 10 → clampThreads n = n) ∧
    clampThreads 0 = 0 ∧
    (∀ (lookup : List ℕ → LookupOutcome) (tld : List ℕ) (labels : List (List ℕ)),
      check_domains lookup tld 0 labels = .error "ZeroDivisionError") ∧
    initFiles "xyz" =
      (["Available Domains (TLD: .xyz)", headerSep],
       ["Registered Domains (TLD: .xyz)", headerSep]) := by
  refine ⟨?_, by decide, ?_, rfl⟩
  · intro n hn
    rw [clampThreads, if_neg (by omega)]
  · intro lookup tld labels
    rw [check_domains, partitionBatches, if_pos rfl]

/-- C10 witness: the clamp keeps a negative requested count, and the
zero-thread pipeline fails with `ZeroDivisionError` on a concrete
label list regardless of the lookup oracle. -/
theorem c10_zero_threads_witness :
    clampThreads (-3) = -3 ∧
    check_domains (fun _ => .failure) (codes "xyz") 0 [[97]] =
      .error "ZeroDivisionError" :=
  ⟨c10_zero_threads.1 (-3) (by norm_num),
   c10_zero_threads.2.2.1 (fun _ => .failure) (codes "xyz") [[97]]⟩

/-- C4: on every successful lookup, `check_domain` classifies the
domain as available exactly when the captured standard output contains
the case-sensitive substring `"DOMAIN NOT FOUND"`; the returned domain
is the one queried, so the classification is a deterministic function
of the output text.  Concretely: an output containing the marker
classifies as available; other outputs — including the lowercase
variant of the marker — classify as registered. -/
theorem c4_classification_marker :
    (∀ domain stdout,
      ((check_domain domain (.success stdout)).result.2 = true ↔
        marker <:+: stdout) ∧
      (check_domain domain (.success stdout)).result.1 = domain) ∧
    (check_domain (codes "a.xyz")
      (.success (codes "query: DOMAIN NOT FOUND here"))).result.2 = true ∧
    (check_domain (codes "a.xyz")
      (.success (codes "Domain Name: A.XYZ"))).result.2 = false ∧
    (check_domain (codes "a.xyz")
      (.success (codes "domain not found"))).result.2 = false := by
  refine ⟨?_, by decide, by decide, by decide⟩
  intro domain stdout
  constructor
  · show containsMarker stdout = true ↔ _
    rw [containsMarker, decide_eq_true_iff]
  · rfl

/-- C5 counterexample: on a subprocess failure the claim says the
domain is written to the registered output stream just as a successful
registered classification would write it; on the concrete domain
`"aaa.xyz"` the failure path performs no `write_to_file` call at all
(its write log is empty, not the registered-stream write). -/
theorem c5_counterexample :
    (check_domain (codes "aaa.xyz") LookupOutcome.failure).writes ≠
      [(codes "aaa.xyz", false)] := by decide

/-- C5 amended: when the lookup subprocess fails, the failure is caught
locally inside `check_domain` (the model returns normally), the domain
is classified as registered in the returned result — it counts as
registered in the final summary — and the worker goes on scanning every
remaining label of its batch; however, unlike a successful registered
classification, NOTHING is written to the registered output stream for
that domain (replaying its write log leaves both files unchanged). -/
theorem c5_failure_classified_registered :
    (∀ domain, check_domain domain .failure =
      { result := (domain, false), writes := [], sleeps := 0 }) ∧
    (∀ files domain,
      applyWrites files (check_domain domain .failure).writes = files) ∧
    (∀ lookup tld domains,
      (check_domains_worker lookup tld domains).length = domains.length ∧
      (check_domains_worker lookup tld domains).map Prod.fst =
        domains.map (addTld tld)) := by
  refine ⟨fun _ => rfl, fun _ _ => rfl, ?_⟩
  intro lookup tld domains
  constructor
  · simp [check_domains_worker]
  · rw [check_domains_worker, List.map_map]
    have hfun : (Prod.fst ∘ fun domain =>
        (check_domain (addTld tld domain) (lookup (addTld tld domain))).result) =
        addTld tld := by
      funext d
      simp only [Function.comp]
      cases lookup (addTld tld d) <;> rfl
    rw [hfun]

/-- C6 counterexample: the claim says every per-label check sleeps
exactly once regardless of outcome; on the subprocess-failure path for
the concrete domain `"aaa.xyz"` no sleep happens (the `time.sleep` call
sits inside the `try` block before `return`, and the `except` handler
returns without sleeping). -/
theorem c6_counterexample :
    (check_domain (codes "aaa.xyz") LookupOutcome.failure).sleeps ≠ 1 := by
  decide

/-- C6 amended: `check_domain` sleeps for the configured interval
exactly once on every successful-lookup path (whatever the output and
classification), and zero times on the subprocess-failure path — the
rate-limit delay is conditional on the lookup not raising. -/
theorem c6_sleep_per_check :
    ∀ domain, (∀ stdout, (check_domain domain (.success stdout)).sleeps = 1) ∧
      (check_domain domain .failure).sleeps = 0 :=
  fun _ => ⟨fun _ => rfl, rfl⟩

theorem collect_aux :
    ∀ (outcomes : List (Except String (List (List ℕ × Bool))))
      (acc : List (List ℕ × Bool)),
      outcomes.foldl
        (fun acc o => match o with | .ok rs => acc ++ rs | .error _ => acc)
        acc =
      acc ++ (outcomes.filterMap Except.toOption).flatten := by
  intro outcomes
  induction outcomes with
  | nil =>
    intro acc
    simp
  | cons o os ih =>
    intro acc
    cases o with
    | ok rs =>
      simp only [List.foldl_cons, List.filterMap_cons]
      rw [ih]
      simp [Except.toOption, List.append_assoc]
    | error msg =>
      simp only [List.foldl_cons, List.filterMap_cons]
      rw [ih]
      simp [Except.toOption]

/-- C8: the collection loop keeps exactly the results of the batch
tasks that completed normally, in order (a raising task contributes
nothing and the others are retained), and the final summary counts as
available the collected results whose flag is true and as registered
all remaining collected results (`len(results) - available_count`,
which equals the number of false-flagged results).  The concrete case
shows a raising middle batch being excluded. -/
theorem c8_collection_and_summary :
    (∀ outcomes, collectResults outcomes =
      (outcomes.filterMap Except.toOption).flatten) ∧
    (∀ rs, availableCount rs + registeredCount rs = rs.length ∧
      registeredCount rs = (rs.filter (fun r => !r.2)).length) ∧
    collectResults [.ok [(codes "a.xyz", true)], .error "boom",
      .ok [(codes "b.xyz", false)]] =
      [(codes "a.xyz", true), (codes "b.xyz", false)] := by
  refine ⟨?_, ?_, by decide⟩
  · intro outcomes
    rw [collectResults, collect_aux, List.nil_append]
  · intro rs
    have hsplit : (rs.filter (fun r => r.2)).length +
        (rs.filter (fun r => !r.2)).length = rs.length := by
      induction rs with
      | nil => rfl
      | cons r rest ih =>
        cases hr : r.2 <;> simp [List.filter_cons, hr] <;> omega
    constructor
    · rw [availableCount, registeredCount, availableCount]
      omega
    · rw [registeredCount, availableCount]
      omega

end DomainCheck
